import Mathlib

/-!
Shallow embedding of the reference orbital-optimized MP2 (OMP2) implementation
(`10a_orbital-optimized-mp2.ipynb`) and proofs of its specified properties.

The spin-orbital index space of size `no + nv` is split into the occupied
block (first `no` indices) and the virtual block (last `nv` indices),
mirroring the slices `o = slice(None, nocc)` and `v = slice(nocc, None)`.
Tensors are total functions over `Fin` index types; scalar arithmetic is in an
arbitrary field (instantiated at `ℝ` for the optimization loop, where the
matrix exponential lives, and at `ℚ` for concrete evaluations).
-/

open Finset

section Embedding

variable {K : Type} [Field K]

/-- The `i`-th occupied spin orbital, as an index into the full space
(the slice `o = slice(None, nocc)`). -/
def occ {no nv : ℕ} (i : Fin no) : Fin (no + nv) :=
  ⟨i.1, by have := i.2; omega⟩

/-- The `a`-th virtual spin orbital, as an index into the full space
(the slice `v = slice(nocc, None)`). -/
def vir {no nv : ℕ} (a : Fin nv) : Fin (no + nv) :=
  ⟨no + a.1, by have := a.2; omega⟩

/-- Antisymmetry of a rank-4 tensor under exchange of the first index pair and
under exchange of the second index pair: `g[p,q,r,s] = -g[q,p,r,s] = -g[p,q,s,r]`. -/
def Antisym4 {n : ℕ} (g : Fin n → Fin n → Fin n → Fin n → K) : Prop :=
  ∀ p q r s, g p q r s = -g q p r s ∧ g p q r s = -g p q s r

/-- Antisymmetry of an amplitude tensor under exchange of the virtual pair and
of the occupied pair: `t[a,b,i,j] = -t[b,a,i,j] = -t[a,b,j,i]`. -/
def AmpAntisym {no nv : ℕ} (t : Fin nv → Fin nv → Fin no → Fin no → K) : Prop :=
  ∀ a b i j, t a b i j = -t b a i j ∧ t a b i j = -t a b j i

/-- One-electron AO→MO transform, leg by leg as in the source:
`np.einsum('pQ, pP -> PQ', np.einsum('pq, qQ -> pQ', hao, C), C)`. -/
def ao_to_mo {n : ℕ} (hao C : Matrix (Fin n) (Fin n) K) : Matrix (Fin n) (Fin n) K :=
  Matrix.of fun P Q => ∑ p, (∑ q, hao p q * C q Q) * C p P

/-- Two-electron AO→MO transform, contracted one leg at a time exactly as the
chain of four `np.einsum` calls in the source (innermost leg `s` first). -/
def ao_to_mo_tei {n : ℕ} (gao : Fin n → Fin n → Fin n → Fin n → K)
    (C : Matrix (Fin n) (Fin n) K) : Fin n → Fin n → Fin n → Fin n → K :=
  fun P Q R S =>
    ∑ p, (∑ q, (∑ r, (∑ s, gao p q r s * C s S) * C r R) * C q Q) * C p P

lemma ao_to_mo_tei_flat {n : ℕ} (gao : Fin n → Fin n → Fin n → Fin n → K)
    (C : Matrix (Fin n) (Fin n) K) (P Q R S : Fin n) :
    ao_to_mo_tei gao C P Q R S =
      ∑ p, ∑ q, ∑ r, ∑ s, (((gao p q r s * C s S) * C r R) * C q Q) * C p P := by
  unfold ao_to_mo_tei
  simp only [Finset.sum_mul]

lemma ao_to_mo_tei_swap_left {n : ℕ} (gao : Fin n → Fin n → Fin n → Fin n → K)
    (C : Matrix (Fin n) (Fin n) K) (hg : ∀ p q r s, gao p q r s = -gao q p r s)
    (P Q R S : Fin n) :
    ao_to_mo_tei gao C P Q R S = -ao_to_mo_tei gao C Q P R S := by
  rw [ao_to_mo_tei_flat, ao_to_mo_tei_flat, ← Finset.sum_neg_distrib]
  rw [Finset.sum_comm]
  refine Finset.sum_congr rfl fun u _ => ?_
  rw [← Finset.sum_neg_distrib]
  refine Finset.sum_congr rfl fun w _ => ?_
  rw [← Finset.sum_neg_distrib]
  refine Finset.sum_congr rfl fun r _ => ?_
  rw [← Finset.sum_neg_distrib]
  refine Finset.sum_congr rfl fun s _ => ?_
  rw [hg w u r s]
  ring

lemma ao_to_mo_tei_swap_right {n : ℕ} (gao : Fin n → Fin n → Fin n → Fin n → K)
    (C : Matrix (Fin n) (Fin n) K) (hg : ∀ p q r s, gao p q r s = -gao p q s r)
    (P Q R S : Fin n) :
    ao_to_mo_tei gao C P Q R S = -ao_to_mo_tei gao C P Q S R := by
  rw [ao_to_mo_tei_flat, ao_to_mo_tei_flat, ← Finset.sum_neg_distrib]
  refine Finset.sum_congr rfl fun p _ => ?_
  rw [← Finset.sum_neg_distrib]
  refine Finset.sum_congr rfl fun q _ => ?_
  rw [← Finset.sum_neg_distrib, Finset.sum_comm]
  refine Finset.sum_congr rfl fun u _ => ?_
  rw [← Finset.sum_neg_distrib]
  refine Finset.sum_congr rfl fun w _ => ?_
  rw [hg p q w u]
  ring

lemma ao_to_mo_tei_antisym {n : ℕ} (gao : Fin n → Fin n → Fin n → Fin n → K)
    (C : Matrix (Fin n) (Fin n) K) (hg : Antisym4 gao) :
    Antisym4 (ao_to_mo_tei gao C) := by
  intro p q r s
  exact ⟨ao_to_mo_tei_swap_left gao C (fun a b c d => (hg a b c d).1) p q r s,
    ao_to_mo_tei_swap_right gao C (fun a b c d => (hg a b c d).2) p q r s⟩

/-- Fock matrix `f[p,q] = hmo[p,q] + Σ_{i occupied} gmo[p,i,q,i]`, the source's
`f = hmo + np.einsum('piqi -> pq', gmo[:, o, :, o])`. -/
def fock {no nv : ℕ} (hmo : Matrix (Fin (no + nv)) (Fin (no + nv)) K)
    (gmo : Fin (no + nv) → Fin (no + nv) → Fin (no + nv) → Fin (no + nv) → K) :
    Matrix (Fin (no + nv)) (Fin (no + nv)) K :=
  Matrix.of fun p q => hmo p q + ∑ i : Fin no, gmo p (occ i) q (occ i)

/-- Off-diagonal Fock matrix: `f` with its diagonal zeroed
(`fprime = f.copy(); np.fill_diagonal(fprime, 0)`). -/
def fprimeOf {n : ℕ} (f : Matrix (Fin n) (Fin n) K) : Matrix (Fin n) (Fin n) K :=
  Matrix.of fun p q => if p = q then 0 else f p q

/-- Orbital energies: the diagonal of the Fock matrix (`eps = f.diagonal()`). -/
def epsOf {n : ℕ} (f : Matrix (Fin n) (Fin n) K) : Fin n → K :=
  fun p => f p p

/-- The 4D tensor of orbital-energy denominators the source divides by:
`- eps[v,x,x,x] - eps[x,v,x,x] + eps[x,x,o,x] + eps[x,x,x,o]`. -/
def ampDenom {no nv : ℕ} (eps : Fin (no + nv) → K) (a b : Fin nv) (i j : Fin no) : K :=
  -eps (vir a) - eps (vir b) + eps (occ i) + eps (occ j)

/-- One amplitude update of the OMP2 loop, exactly as in the source:
`t1 = gmo[v, v, o, o]`,
`t2 = np.einsum('ac,cbij -> abij', fprime[v, v], t_amp)`,
`t3 = np.einsum('ki,abkj -> abij', fprime[o, o], t_amp)`,
`t_amp = t1 + t2 - t2.transpose((1, 0, 2, 3)) - t3 + t3.transpose((0, 1, 3, 2))`,
then element-wise division by the orbital-energy denominator tensor. -/
def t_update {no nv : ℕ} (fprime : Matrix (Fin (no + nv)) (Fin (no + nv)) K)
    (gmo : Fin (no + nv) → Fin (no + nv) → Fin (no + nv) → Fin (no + nv) → K)
    (eps : Fin (no + nv) → K) (t_amp : Fin nv → Fin nv → Fin no → Fin no → K) :
    Fin nv → Fin nv → Fin no → Fin no → K :=
  fun a b i j =>
    (gmo (vir a) (vir b) (occ i) (occ j)
        + (∑ c, fprime (vir a) (vir c) * t_amp c b i j)
        - (∑ c, fprime (vir b) (vir c) * t_amp c a i j)
        - (∑ k, fprime (occ k) (occ i) * t_amp a b k j)
        + (∑ k, fprime (occ k) (occ j) * t_amp a b k i))
      / ampDenom eps a b i j

/-- The amplitude update as the specification words it:
`t_new[a,b,i,j] = [ gmo_vvoo[a,b,i,j] + (fprime_vv contracted with t_prev over
one virtual index, antisymmetrized over a,b) − (fprime_oo contracted with
t_prev over one occupied index, antisymmetrized over i,j) ] / D[a,b,i,j]` with
`D[a,b,i,j] = eps[i] + eps[j] − eps[a] − eps[b]`. -/
def t_update_spec {no nv : ℕ} (fprime : Matrix (Fin (no + nv)) (Fin (no + nv)) K)
    (gmo : Fin (no + nv) → Fin (no + nv) → Fin (no + nv) → Fin (no + nv) → K)
    (eps : Fin (no + nv) → K) (t_prev : Fin nv → Fin nv → Fin no → Fin no → K) :
    Fin nv → Fin nv → Fin no → Fin no → K :=
  fun a b i j =>
    (gmo (vir a) (vir b) (occ i) (occ j)
        + ((∑ c, fprime (vir a) (vir c) * t_prev c b i j)
            - (∑ c, fprime (vir b) (vir c) * t_prev c a i j))
        - ((∑ k, fprime (occ k) (occ i) * t_prev a b k j)
            - (∑ k, fprime (occ k) (occ j) * t_prev a b k i)))
      / (eps (occ i) + eps (occ j) - eps (vir a) - eps (vir b))

lemma t_update_antisym {no nv : ℕ} (fprime : Matrix (Fin (no + nv)) (Fin (no + nv)) K)
    (gmo : Fin (no + nv) → Fin (no + nv) → Fin (no + nv) → Fin (no + nv) → K)
    (eps : Fin (no + nv) → K) (t_amp : Fin nv → Fin nv → Fin no → Fin no → K)
    (hg : Antisym4 gmo) (ht : AmpAntisym t_amp) :
    AmpAntisym (t_update fprime gmo eps t_amp) := by
  intro a b i j
  constructor
  · show _ / _ = -(_ / _)
    rw [show ampDenom eps b a i j = ampDenom eps a b i j by unfold ampDenom; ring,
      ← neg_div]
    congr 1
    have hG := (hg (vir a) (vir b) (occ i) (occ j)).1
    have hC : (∑ k, fprime (occ k) (occ i) * t_amp b a k j)
        = -∑ k, fprime (occ k) (occ i) * t_amp a b k j := by
      rw [← Finset.sum_neg_distrib]
      exact Finset.sum_congr rfl fun k _ => by rw [(ht a b k j).1]; ring
    have hD : (∑ k, fprime (occ k) (occ j) * t_amp b a k i)
        = -∑ k, fprime (occ k) (occ j) * t_amp a b k i := by
      rw [← Finset.sum_neg_distrib]
      exact Finset.sum_congr rfl fun k _ => by rw [(ht a b k i).1]; ring
    rw [hG, hC, hD]
    ring
  · show _ / _ = -(_ / _)
    rw [show ampDenom eps a b j i = ampDenom eps a b i j by unfold ampDenom; ring,
      ← neg_div]
    congr 1
    have hG := (hg (vir a) (vir b) (occ i) (occ j)).2
    have hA : (∑ c, fprime (vir a) (vir c) * t_amp c b j i)
        = -∑ c, fprime (vir a) (vir c) * t_amp c b i j := by
      rw [← Finset.sum_neg_distrib]
      exact Finset.sum_congr rfl fun c _ => by rw [(ht c b i j).2]; ring
    have hB : (∑ c, fprime (vir b) (vir c) * t_amp c a j i)
        = -∑ c, fprime (vir b) (vir c) * t_amp c a i j := by
      rw [← Finset.sum_neg_distrib]
      exact Finset.sum_congr rfl fun c _ => by rw [(ht c a i j).2]; ring
    rw [hG, hA, hB]
    ring

/-- Correlation one-particle density matrix.  Virtual-virtual block
`(1/2)*np.einsum('ijac,bcij -> ba', t_amp.T, t_amp)`, occupied-occupied block
`-(1/2)*np.einsum('jkab,abik -> ji', t_amp.T, t_amp)` (with `t_amp.T` the full
four-leg reversal), all other blocks left at their zero initialization. -/
def opdm_corr {no nv : ℕ} (t_amp : Fin nv → Fin nv → Fin no → Fin no → K) :
    Matrix (Fin (no + nv)) (Fin (no + nv)) K :=
  Matrix.of fun p q =>
    if h : no ≤ p.1 ∧ no ≤ q.1 then
      (1 / 2) * ∑ i, ∑ j, ∑ c,
        t_amp c ⟨q.1 - no, by have := q.2; omega⟩ j i
          * t_amp ⟨p.1 - no, by have := p.2; omega⟩ c i j
    else if h' : p.1 < no ∧ q.1 < no then
      -(1 / 2) * ∑ k, ∑ a, ∑ b,
        t_amp b a k ⟨p.1, h'.1⟩ * t_amp a b ⟨q.1, h'.2⟩ k
    else 0

/-- Reference one-particle density matrix: identity on the occupied-occupied
block, zero elsewhere (`opdm_ref[o, o] = np.identity(nocc)`). -/
def opdm_ref (no nv : ℕ) : Matrix (Fin (no + nv)) (Fin (no + nv)) K :=
  Matrix.of fun p q => if p = q ∧ p.1 < no then 1 else 0

/-- Full one-particle density matrix, `opdm = opdm_corr + opdm_ref`. -/
def opdm {no nv : ℕ} (t_amp : Fin nv → Fin nv → Fin no → Fin no → K) :
    Matrix (Fin (no + nv)) (Fin (no + nv)) K :=
  Matrix.of fun p q => opdm_corr t_amp p q + opdm_ref no nv p q

/-- Correlation two-particle density matrix:
`tpdm_corr[v, v, o, o] = t_amp`, `tpdm_corr[o, o, v, v] = t_amp.T`
(four-leg reversal), all other blocks left at their zero initialization. -/
def tpdm_corr {no nv : ℕ} (t_amp : Fin nv → Fin nv → Fin no → Fin no → K) :
    Fin (no + nv) → Fin (no + nv) → Fin (no + nv) → Fin (no + nv) → K :=
  fun p q r s =>
    if h : no ≤ p.1 ∧ no ≤ q.1 ∧ r.1 < no ∧ s.1 < no then
      t_amp ⟨p.1 - no, by have := p.2; omega⟩ ⟨q.1 - no, by have := q.2; omega⟩
        ⟨r.1, h.2.2.1⟩ ⟨s.1, h.2.2.2⟩
    else if h' : p.1 < no ∧ q.1 < no ∧ no ≤ r.1 ∧ no ≤ s.1 then
      t_amp ⟨s.1 - no, by have := s.2; omega⟩ ⟨r.1 - no, by have := r.2; omega⟩
        ⟨q.1, h'.2.1⟩ ⟨p.1, h'.1⟩
    else 0

/-- Transposition of the first two legs of a rank-4 tensor
(numpy `transpose((1, 0, 2, 3))`). -/
def swap01 {n : ℕ} (T : Fin n → Fin n → Fin n → Fin n → K) :
    Fin n → Fin n → Fin n → Fin n → K :=
  fun p q r s => T q p r s

/-- Transposition of the last two legs of a rank-4 tensor
(numpy `transpose((0, 1, 3, 2))`). -/
def swap23 {n : ℕ} (T : Fin n → Fin n → Fin n → Fin n → K) :
    Fin n → Fin n → Fin n → Fin n → K :=
  fun p q r s => T p q s r

/-- `tpdm2 = np.einsum('rp,sq -> rspq', opdm_corr, opdm_ref)`. -/
def tpdm2 {no nv : ℕ} (t_amp : Fin nv → Fin nv → Fin no → Fin no → K) :
    Fin (no + nv) → Fin (no + nv) → Fin (no + nv) → Fin (no + nv) → K :=
  fun r s p q => opdm_corr t_amp r p * opdm_ref no nv s q

/-- `tpdm3 = np.einsum('rp,sq -> rspq', opdm_ref, opdm_ref)`. -/
def tpdm3 (no nv : ℕ) :
    Fin (no + nv) → Fin (no + nv) → Fin (no + nv) → Fin (no + nv) → K :=
  fun r s p q => opdm_ref no nv r p * opdm_ref no nv s q

/-- Full two-particle density matrix, assembled exactly as in the source:
`tpdm = tpdm_corr + tpdm2 - tpdm2.transpose((1,0,2,3)) - tpdm2.transpose((0,1,3,2))
+ tpdm2.transpose((1,0,3,2)) + tpdm3 - tpdm3.transpose((1,0,2,3))`. -/
def tpdm {no nv : ℕ} (t_amp : Fin nv → Fin nv → Fin no → Fin no → K) :
    Fin (no + nv) → Fin (no + nv) → Fin (no + nv) → Fin (no + nv) → K :=
  fun r s p q =>
    tpdm_corr t_amp r s p q
      + tpdm2 t_amp r s p q - swap01 (tpdm2 t_amp) r s p q
      - swap23 (tpdm2 t_amp) r s p q + swap01 (swap23 (tpdm2 t_amp)) r s p q
      + tpdm3 no nv r s p q - swap01 (tpdm3 no nv) r s p q

/-- Generalized Fock matrix
`F = np.einsum('pr,rq->pq', hmo, opdm) + (1/2)*np.einsum('prst,stqr -> pq', gmo, tpdm)`. -/
def genFock {n : ℕ} (hmo : Matrix (Fin n) (Fin n) K)
    (gmo : Fin n → Fin n → Fin n → Fin n → K)
    (odm : Matrix (Fin n) (Fin n) K)
    (tdm : Fin n → Fin n → Fin n → Fin n → K) : Matrix (Fin n) (Fin n) K :=
  Matrix.of fun p q =>
    (∑ r, hmo p r * odm r q) + (1 / 2) * ∑ r, ∑ s, ∑ u, gmo p r s u * tdm s u q r

/-- Rotation generator: zero except for the virtual-occupied block
`X[v, o] = ((F - F.T)[v, o])/(- eps[v, x] + eps[x, o])`
(the matrix `X` is initialized to zero and only this block is ever written). -/
def rotationGenerator {no nv : ℕ} (F : Matrix (Fin (no + nv)) (Fin (no + nv)) K)
    (eps : Fin (no + nv) → K) : Matrix (Fin (no + nv)) (Fin (no + nv)) K :=
  Matrix.of fun p q =>
    if no ≤ p.1 ∧ q.1 < no then (F p q - F q p) / (-eps p + eps q) else 0

/-- Total OMP2 energy
`E_nuc + np.einsum('pq,qp ->', hmo, opdm) + (1/4)*np.einsum('pqrs,rspq ->', gmo, tpdm)`. -/
def energyOf {n : ℕ} (E_nuc : K) (hmo : Matrix (Fin n) (Fin n) K)
    (gmo : Fin n → Fin n → Fin n → Fin n → K)
    (odm : Matrix (Fin n) (Fin n) K)
    (tdm : Fin n → Fin n → Fin n → Fin n → K) : K :=
  E_nuc + (∑ p, ∑ q, hmo p q * odm q p)
    + (1 / 4) * ∑ p, ∑ q, ∑ r, ∑ s, gmo p q r s * tdm r s p q

end Embedding

/-- Newton-Raphson orbital rotation operator `U = la.expm(X - X.T)`,
the matrix exponential of the antisymmetrized generator. -/
noncomputable def rotationOperator {n : ℕ} (X : Matrix (Fin n) (Fin n) ℝ) :
    Matrix (Fin n) (Fin n) ℝ :=
  NormedSpace.exp ℝ (X - X.transpose)

/-- State owned by the convergence driver across iterations: the coefficient
matrix `C`, the amplitude tensor `t_amp`, and the energy bookkeeping
`E_OMP2_old` / `E_OMP2`. -/
structure OMP2State (no nv : ℕ) where
  C : Matrix (Fin (no + nv)) (Fin (no + nv)) ℝ
  t_amp : Fin nv → Fin nv → Fin no → Fin no → ℝ
  E_OMP2_old : ℝ
  E_OMP2 : ℝ

/-- One full iteration body of the OMP2 loop: Fock build, amplitude update,
density build, Newton-Raphson rotation, re-transformation of the integrals
with the rotated coefficients, and energy evaluation. -/
noncomputable def omp2_body {no nv : ℕ}
    (hao : Matrix (Fin (no + nv)) (Fin (no + nv)) ℝ)
    (gao : Fin (no + nv) → Fin (no + nv) → Fin (no + nv) → Fin (no + nv) → ℝ)
    (E_nuc : ℝ) (s : OMP2State no nv) : OMP2State no nv :=
  let hmo := ao_to_mo hao s.C
  let gmo := ao_to_mo_tei gao s.C
  let f := fock hmo gmo
  let fprime := fprimeOf f
  let eps := epsOf f
  let t' := t_update fprime gmo eps s.t_amp
  let od := opdm t'
  let tp := tpdm t'
  let F := genFock hmo gmo od tp
  let X := rotationGenerator F eps
  let U := rotationOperator X
  let C' := s.C * U
  let hmo' := ao_to_mo hao C'
  let gmo' := ao_to_mo_tei gao C'
  ⟨C', t', s.E_OMP2_old, energyOf E_nuc hmo' gmo' od tp⟩

/-- The state carried into the next iteration when the convergence test fails:
the body's result with `E_OMP2_old` updated to the freshly computed energy
(the source's `E_OMP2_old = E_OMP2`). -/
noncomputable def omp2_advance {no nv : ℕ}
    (body : OMP2State no nv → OMP2State no nv) (s : OMP2State no nv) :
    OMP2State no nv :=
  ⟨(body s).C, (body s).t_amp, (body s).E_OMP2, (body s).E_OMP2⟩

/-- Terminal outcome of the convergence driver: the loop either exits through
the `break` on the energy test, or exhausts its iteration budget. -/
inductive OMP2Outcome
| converged
| maxIterationsExceeded
deriving DecidableEq

/-- The convergence driver `for iteration in range(MAXITER): ...`, with fuel:
run the body; if `abs(E_OMP2 - E_OMP2_old) < E_conv` then `break`
(outcome `converged`), else update `E_OMP2_old` and continue; running out of
fuel is the `maxIterationsExceeded` outcome. -/
noncomputable def omp2_loop {no nv : ℕ}
    (body : OMP2State no nv → OMP2State no nv) (E_conv : ℝ) :
    ℕ → OMP2State no nv → OMP2State no nv × OMP2Outcome
  | 0, s => (s, OMP2Outcome.maxIterationsExceeded)
  | Nat.succ n, s =>
    if |(body s).E_OMP2 - (body s).E_OMP2_old| < E_conv then
      (body s, OMP2Outcome.converged)
    else omp2_loop body E_conv n (omp2_advance body s)

/-- Initial state of the optimization: the reference coefficient matrix,
`t_amp = np.zeros(...)` and `E_OMP2_old = 0.0`. -/
def omp2_init {no nv : ℕ} (C : Matrix (Fin (no + nv)) (Fin (no + nv)) ℝ) :
    OMP2State no nv :=
  ⟨C, fun _ _ _ _ => 0, 0, 0⟩

section Lemmas

variable {K : Type} [Field K]

lemma t_update_of_zero {no nv : ℕ} (fprime : Matrix (Fin (no + nv)) (Fin (no + nv)) K)
    (gmo : Fin (no + nv) → Fin (no + nv) → Fin (no + nv) → Fin (no + nv) → K)
    (eps : Fin (no + nv) → K) (a b : Fin nv) (i j : Fin no) :
    t_update fprime gmo eps (fun _ _ _ _ => 0) a b i j =
      gmo (vir a) (vir b) (occ i) (occ j)
        / (eps (occ i) + eps (occ j) - eps (vir a) - eps (vir b)) := by
  unfold t_update ampDenom
  simp only [mul_zero, Finset.sum_const_zero, add_zero, sub_zero]
  congr 1
  ring

end Lemmas

/-- C2: given the off-diagonal Fock matrix `fprime`, the
virtual-virtual-occupied-occupied block of `gmo`, the orbital energies `eps`
and the previous amplitude, the updated amplitude is the antisymmetrized
`fprime`-dressed residual divided element-wise by
`D[a,b,i,j] = eps[i] + eps[j] − eps[a] − eps[b]`. -/
theorem t_update_matches_spec {K : Type} [Field K] {no nv : ℕ}
    (fprime : Matrix (Fin (no + nv)) (Fin (no + nv)) K)
    (gmo : Fin (no + nv) → Fin (no + nv) → Fin (no + nv) → Fin (no + nv) → K)
    (eps : Fin (no + nv) → K) (t_prev : Fin nv → Fin nv → Fin no → Fin no → K)
    (a b : Fin nv) (i j : Fin no) :
    t_update fprime gmo eps t_prev a b i j =
      t_update_spec fprime gmo eps t_prev a b i j := by
  unfold t_update t_update_spec ampDenom
  rw [show -eps (vir a) - eps (vir b) + eps (occ i) + eps (occ j)
      = eps (occ i) + eps (occ j) - eps (vir a) - eps (vir b) from by ring]
  congr 1
  ring

/-- C10: with the amplitude tensor at its zero initialization, both `fprime`
contraction terms of the update vanish and the first iteration of the loop
produces exactly the virtual-virtual-occupied-occupied block of `gmo` divided
element-wise by the orbital-energy denominator — the canonical MP2 amplitudes. -/
theorem first_iteration_is_canonical_mp2 {no nv : ℕ}
    (hao : Matrix (Fin (no + nv)) (Fin (no + nv)) ℝ)
    (gao : Fin (no + nv) → Fin (no + nv) → Fin (no + nv) → Fin (no + nv) → ℝ)
    (E_nuc : ℝ) (C : Matrix (Fin (no + nv)) (Fin (no + nv)) ℝ)
    (a b : Fin nv) (i j : Fin no) :
    (omp2_body hao gao E_nuc (omp2_init C)).t_amp a b i j =
      ao_to_mo_tei gao C (vir a) (vir b) (occ i) (occ j)
        / (epsOf (fock (ao_to_mo hao C) (ao_to_mo_tei gao C)) (occ i)
            + epsOf (fock (ao_to_mo hao C) (ao_to_mo_tei gao C)) (occ j)
            - epsOf (fock (ao_to_mo hao C) (ao_to_mo_tei gao C)) (vir a)
            - epsOf (fock (ao_to_mo hao C) (ao_to_mo_tei gao C)) (vir b)) := by
  show t_update (fprimeOf (fock (ao_to_mo hao C) (ao_to_mo_tei gao C)))
      (ao_to_mo_tei gao C)
      (epsOf (fock (ao_to_mo hao C) (ao_to_mo_tei gao C)))
      (fun _ _ _ _ => 0) a b i j = _
  exact t_update_of_zero _ _ _ a b i j

/-- C4: the rotation operator `U = la.expm(X - X.T)` is orthogonal,
`Uᵀ * U = 1`, for every generator `X` (in particular for the antisymmetrized
generator of any iteration, and for `X = 0`), because `X - Xᵀ` is exactly
antisymmetric. -/
theorem rotation_operator_orthogonal {n : ℕ} (X : Matrix (Fin n) (Fin n) ℝ) :
    (rotationOperator X).transpose * rotationOperator X = 1 := by
  unfold rotationOperator
  rw [← Matrix.exp_transpose]
  rw [show (X - X.transpose).transpose = -(X - X.transpose) from by
    rw [Matrix.transpose_sub, Matrix.transpose_transpose, neg_sub]]
  rw [← Matrix.exp_add_of_commute ℝ _ _ ((Commute.refl (X - X.transpose)).neg_left)]
  rw [neg_add_cancel, NormedSpace.exp_zero]

/-- C5: the four-index transform preserves the antisymmetries of the
two-electron tensor: if `g[p,q,r,s] = -g[q,p,r,s] = -g[p,q,s,r]` then the
transformed `gmo` satisfies the same index-pair antisymmetries. -/
theorem ao_to_mo_tei_preserves_antisymmetry {K : Type} [Field K] {n : ℕ}
    (g : Fin n → Fin n → Fin n → Fin n → K) (C : Matrix (Fin n) (Fin n) K)
    (hg : Antisym4 g) : Antisym4 (ao_to_mo_tei g C) :=
  ao_to_mo_tei_antisym g C hg

/-- A small concrete antisymmetrized two-electron tensor used to witness C5;
it is nonzero, e.g. `g_example 0 1 0 1 = 1`. -/
def g_example : Fin 2 → Fin 2 → Fin 2 → Fin 2 → ℚ := fun p q r s =>
  ((q.1 : ℚ) - (p.1 : ℚ)) * ((s.1 : ℚ) - (r.1 : ℚ))

/-- A small concrete coefficient matrix used to witness C5. -/
def C_example : Matrix (Fin 2) (Fin 2) ℚ :=
  Matrix.of fun p q => (p.1 : ℚ) + 2 * (q.1 : ℚ) + 1

theorem ao_to_mo_tei_preserves_antisymmetry_witness :
    Antisym4 g_example ∧ Antisym4 (ao_to_mo_tei g_example C_example) :=
  have h : Antisym4 g_example := fun p q r s => by
    constructor <;> (unfold g_example; ring)
  ⟨h, ao_to_mo_tei_preserves_antisymmetry g_example C_example h⟩

/-- Orbital energies with an occupied orbital (energy 3) above the virtual
orbitals (energy 2): occupied block `[3, 1]`, virtual block `[2, 2]`, so the
denominator `eps[i] + eps[j] - eps[a] - eps[b]` vanishes at `(a,b,i,j) = (0,0,0,1)`. -/
def eps_degenerate : Fin (2 + 2) → ℚ := fun p =>
  if p.1 = 0 then 3 else if p.1 = 1 then 1 else 2

/-- C1: the code performs the element-wise division unguarded.  With orbital
energies where an occupied energy exceeds a virtual one, the denominator tensor
is exactly zero at an index, yet the amplitude update still returns a plain
finite value there (the total-function division of the embedding; numpy emits
`inf`/`nan` and continues) — no "degenerate orbital energies" error path exists
anywhere in the update. -/
theorem amplitude_division_unguarded :
    ampDenom eps_degenerate (0 : Fin 2) (0 : Fin 2) (0 : Fin 2) (1 : Fin 2) = 0
    ∧ eps_degenerate (vir (0 : Fin 2)) < eps_degenerate (occ (0 : Fin 2))
    ∧ t_update (0 : Matrix (Fin (2 + 2)) (Fin (2 + 2)) ℚ)
        (fun _ _ _ _ => 1) eps_degenerate (fun _ _ _ _ => 0)
        (0 : Fin 2) (0 : Fin 2) (0 : Fin 2) (1 : Fin 2) = 0 := by
  refine ⟨?_, ?_, ?_⟩
  · unfold ampDenom eps_degenerate vir occ
    norm_num
  · unfold eps_degenerate vir occ
    norm_num
  · rw [t_update_of_zero]
    unfold eps_degenerate vir occ
    norm_num

/-- C8: if the virtual-occupied block of `F - Fᵀ` (the orbital gradient) is
exactly zero, then the rotation generator `X` is the zero matrix, the rotation
operator `U = expm(X - Xᵀ)` is the identity, and the coefficient update
`C ← C·U` leaves `C` unchanged. -/
theorem zero_gradient_is_noop {no nv : ℕ}
    (F : Matrix (Fin (no + nv)) (Fin (no + nv)) ℝ) (eps : Fin (no + nv) → ℝ)
    (C : Matrix (Fin (no + nv)) (Fin (no + nv)) ℝ)
    (hG : ∀ p q : Fin (no + nv), no ≤ p.1 → q.1 < no → F p q = F q p) :
    rotationGenerator F eps = 0
      ∧ rotationOperator (rotationGenerator F eps) = 1
      ∧ C * rotationOperator (rotationGenerator F eps) = C := by
  have hX : rotationGenerator F eps = 0 := by
    ext p q
    simp only [rotationGenerator, Matrix.of_apply, Matrix.zero_apply]
    split_ifs with h
    · rw [hG p q h.1 h.2, sub_self, zero_div]
    · rfl
  have hU : rotationOperator (rotationGenerator F eps) = 1 := by
    rw [hX]
    unfold rotationOperator
    rw [Matrix.transpose_zero, sub_zero, NormedSpace.exp_zero]
  exact ⟨hX, hU, by rw [hU, mul_one]⟩

theorem zero_gradient_is_noop_witness :
    rotationGenerator (0 : Matrix (Fin (1 + 1)) (Fin (1 + 1)) ℝ) (fun _ => 0) = 0
      ∧ rotationOperator (rotationGenerator (0 : Matrix (Fin (1 + 1)) (Fin (1 + 1)) ℝ)
          (fun _ => 0)) = 1
      ∧ (1 : Matrix (Fin (1 + 1)) (Fin (1 + 1)) ℝ)
          * rotationOperator (rotationGenerator (0 : Matrix (Fin (1 + 1)) (Fin (1 + 1)) ℝ)
              (fun _ => 0)) = 1 :=
  zero_gradient_is_noop 0 (fun _ => 0) 1 (fun _ _ _ _ => rfl)

section DensitySymmetry

variable {K : Type} [Field K]

lemma vv_sum_symm {no nv : ℕ} (t_amp : Fin nv → Fin nv → Fin no → Fin no → K)
    (ht : AmpAntisym t_amp) (x y : Fin nv) :
    ∑ i, ∑ j, ∑ c, t_amp c y j i * t_amp x c i j
      = ∑ i, ∑ j, ∑ c, t_amp c x j i * t_amp y c i j := by
  have key : ∀ (c z : Fin nv) (i j : Fin no), t_amp c z j i = t_amp z c i j := by
    intro c z i j
    rw [(ht c z j i).1, (ht z c j i).2]; ring
  refine Finset.sum_congr rfl fun i _ => ?_
  refine Finset.sum_congr rfl fun j _ => ?_
  refine Finset.sum_congr rfl fun c _ => ?_
  rw [key c y i j, key c x i j]
  ring

lemma oo_sum_symm {no nv : ℕ} (t_amp : Fin nv → Fin nv → Fin no → Fin no → K)
    (ht : AmpAntisym t_amp) (x y : Fin no) :
    ∑ k, ∑ a, ∑ b, t_amp b a k x * t_amp a b y k
      = ∑ k, ∑ a, ∑ b, t_amp b a k y * t_amp a b x k := by
  have key : ∀ (a b : Fin nv) (k z : Fin no), t_amp b a k z = t_amp a b z k := by
    intro a b k z
    rw [(ht b a k z).1, (ht a b k z).2]; ring
  refine Finset.sum_congr rfl fun k _ => ?_
  refine Finset.sum_congr rfl fun a _ => ?_
  refine Finset.sum_congr rfl fun b _ => ?_
  rw [key a b k x, key a b k y]
  ring

lemma opdm_ref_symm {no nv : ℕ} (p q : Fin (no + nv)) :
    (opdm_ref no nv : Matrix (Fin (no + nv)) (Fin (no + nv)) K) p q
      = opdm_ref no nv q p := by
  unfold opdm_ref
  by_cases h : p = q
  · subst h; rfl
  · rw [Matrix.of_apply, Matrix.of_apply, if_neg (fun hc => h hc.1),
      if_neg (fun hc => h hc.1.symm)]

lemma opdm_corr_symm {no nv : ℕ} (t_amp : Fin nv → Fin nv → Fin no → Fin no → K)
    (ht : AmpAntisym t_amp) (p q : Fin (no + nv)) :
    opdm_corr t_amp p q = opdm_corr t_amp q p := by
  unfold opdm_corr
  rw [Matrix.of_apply, Matrix.of_apply]
  by_cases hp : no ≤ p.1 <;> by_cases hq : no ≤ q.1
  · rw [dif_pos ⟨hp, hq⟩, dif_pos ⟨hq, hp⟩]
    congr 1
    exact vv_sum_symm t_amp ht _ _
  · rw [dif_neg (by omega : ¬(no ≤ p.1 ∧ no ≤ q.1)),
      dif_neg (by omega : ¬(p.1 < no ∧ q.1 < no)),
      dif_neg (by omega : ¬(no ≤ q.1 ∧ no ≤ p.1)),
      dif_neg (by omega : ¬(q.1 < no ∧ p.1 < no))]
  · rw [dif_neg (by omega : ¬(no ≤ p.1 ∧ no ≤ q.1)),
      dif_neg (by omega : ¬(p.1 < no ∧ q.1 < no)),
      dif_neg (by omega : ¬(no ≤ q.1 ∧ no ≤ p.1)),
      dif_neg (by omega : ¬(q.1 < no ∧ p.1 < no))]
  · rw [dif_neg (by omega : ¬(no ≤ p.1 ∧ no ≤ q.1)),
      dif_pos (⟨by omega, by omega⟩ : p.1 < no ∧ q.1 < no),
      dif_neg (by omega : ¬(no ≤ q.1 ∧ no ≤ p.1)),
      dif_pos (⟨by omega, by omega⟩ : q.1 < no ∧ p.1 < no)]
    congr 1
    exact oo_sum_symm t_amp ht _ _

end DensitySymmetry

/-- C9: the one-particle density matrix `opdm = opdm_corr + opdm_ref` built by
the density builder is symmetric whenever the amplitude tensor has its pairwise
antisymmetries: the reference part is an identity block and both correlation
blocks are symmetric. -/
theorem opdm_symmetric {K : Type} [Field K] {no nv : ℕ}
    (t_amp : Fin nv → Fin nv → Fin no → Fin no → K) (ht : AmpAntisym t_amp)
    (p q : Fin (no + nv)) : opdm t_amp p q = opdm t_amp q p := by
  unfold opdm
  rw [Matrix.of_apply, Matrix.of_apply, opdm_corr_symm t_amp ht p q, opdm_ref_symm p q]

/-- A small concrete antisymmetric amplitude tensor used to witness C9
(`nv = no = 2`; nonzero, e.g. the value at `(0,1,0,1)` is `1`). -/
def t_example : Fin 2 → Fin 2 → Fin 2 → Fin 2 → ℚ := fun a b i j =>
  ((b.1 : ℚ) - (a.1 : ℚ)) * ((j.1 : ℚ) - (i.1 : ℚ))

theorem opdm_symmetric_witness :
    AmpAntisym t_example
      ∧ opdm t_example (0 : Fin (2 + 2)) (1 : Fin (2 + 2))
          = opdm t_example (1 : Fin (2 + 2)) (0 : Fin (2 + 2)) :=
  have h : AmpAntisym t_example := fun a b i j => by
    constructor <;> (unfold t_example; ring)
  ⟨h, opdm_symmetric t_example h 0 1⟩

lemma omp2_body_t_amp {no nv : ℕ} (hao : Matrix (Fin (no + nv)) (Fin (no + nv)) ℝ)
    (gao : Fin (no + nv) → Fin (no + nv) → Fin (no + nv) → Fin (no + nv) → ℝ)
    (E_nuc : ℝ) (s : OMP2State no nv) :
    (omp2_body hao gao E_nuc s).t_amp =
      t_update (fprimeOf (fock (ao_to_mo hao s.C) (ao_to_mo_tei gao s.C)))
        (ao_to_mo_tei gao s.C)
        (epsOf (fock (ao_to_mo hao s.C) (ao_to_mo_tei gao s.C))) s.t_amp := rfl

lemma omp2_body_preserves_antisym {no nv : ℕ}
    (hao : Matrix (Fin (no + nv)) (Fin (no + nv)) ℝ)
    (gao : Fin (no + nv) → Fin (no + nv) → Fin (no + nv) → Fin (no + nv) → ℝ)
    (E_nuc : ℝ) (hg : Antisym4 gao) (s : OMP2State no nv)
    (ht : AmpAntisym s.t_amp) : AmpAntisym (omp2_body hao gao E_nuc s).t_amp := by
  rw [omp2_body_t_amp]
  exact t_update_antisym _ _ _ _ (ao_to_mo_tei_antisym gao s.C hg) ht

/-- C3: starting from the zero amplitude initialization, every iteration of the
optimization loop produces an amplitude tensor satisfying
`t[a,b,i,j] = -t[b,a,i,j] = -t[a,b,j,i]`, provided the raw two-electron tensor
`gao` has the stated antisymmetries (so every re-transformed `gmo` has them too). -/
theorem t_amp_antisym_every_iteration {no nv : ℕ}
    (hao : Matrix (Fin (no + nv)) (Fin (no + nv)) ℝ)
    (gao : Fin (no + nv) → Fin (no + nv) → Fin (no + nv) → Fin (no + nv) → ℝ)
    (E_nuc : ℝ) (C : Matrix (Fin (no + nv)) (Fin (no + nv)) ℝ)
    (hg : Antisym4 gao) (k : ℕ) :
    AmpAntisym (((omp2_advance (omp2_body hao gao E_nuc))^[k]) (omp2_init C)).t_amp := by
  induction k with
  | zero =>
    intro a b i j
    exact ⟨by simp [omp2_init], by simp [omp2_init]⟩
  | succ m ih =>
    rw [Function.iterate_succ_apply']
    exact omp2_body_preserves_antisym hao gao E_nuc hg _ ih

theorem t_amp_antisym_every_iteration_witness :
    Antisym4 (fun _ _ _ _ => (0 : ℝ) :
        Fin (1 + 1) → Fin (1 + 1) → Fin (1 + 1) → Fin (1 + 1) → ℝ)
      ∧ AmpAntisym (((omp2_advance (omp2_body (0 : Matrix (Fin (1 + 1)) (Fin (1 + 1)) ℝ)
          (fun _ _ _ _ => (0 : ℝ)) 0))^[2])
          (omp2_init (1 : Matrix (Fin (1 + 1)) (Fin (1 + 1)) ℝ))).t_amp :=
  have h : Antisym4 (fun _ _ _ _ => (0 : ℝ) :
      Fin (1 + 1) → Fin (1 + 1) → Fin (1 + 1) → Fin (1 + 1) → ℝ) :=
    fun _ _ _ _ => by constructor <;> simp
  ⟨h, t_amp_antisym_every_iteration 0 (fun _ _ _ _ => 0) 0 1 h 2⟩

/-- The convergence test of the loop body: `abs(E_OMP2 - E_OMP2_old) < E_conv`
evaluated on the state just produced by the iteration body. -/
abbrev convCheck {no nv : ℕ} (body : OMP2State no nv → OMP2State no nv)
    (E_conv : ℝ) (s : OMP2State no nv) : Prop :=
  |(body s).E_OMP2 - (body s).E_OMP2_old| < E_conv

lemma omp2_loop_converged_iff {no nv : ℕ}
    (body : OMP2State no nv → OMP2State no nv) (E_conv : ℝ) :
    ∀ (n : ℕ) (s : OMP2State no nv),
      (omp2_loop body E_conv n s).2 = OMP2Outcome.converged ↔
        ∃ k < n, convCheck body E_conv ((omp2_advance body)^[k] s) := by
  intro n
  induction n with
  | zero =>
    intro s
    simp [omp2_loop]
  | succ m ih =>
    intro s
    by_cases h : convCheck body E_conv s
    · simp only [omp2_loop, if_pos h]
      constructor
      · intro _
        exact ⟨0, Nat.succ_pos m, by simpa using h⟩
      · intro _
        trivial
    · simp only [omp2_loop, if_neg h]
      rw [ih (omp2_advance body s)]
      constructor
      · rintro ⟨k, hk, hc⟩
        refine ⟨k + 1, by omega, ?_⟩
        rwa [Function.iterate_succ_apply]
      · rintro ⟨k, hk, hc⟩
        cases k with
        | zero => exact absurd (by simpa using hc) h
        | succ k' =>
          exact ⟨k', by omega, by rwa [Function.iterate_succ_apply] at hc⟩

/-- C6: the driver, started from `E_OMP2_old = 0.0`, terminates with the
`converged` outcome exactly when some iteration within the budget satisfies
`abs(E_OMP2 - E_OMP2_old) < E_conv`; if the iteration budget is exhausted
without satisfying the test, it terminates with the distinct
`maxIterationsExceeded` outcome. -/
theorem convergence_driver_outcomes {no nv : ℕ}
    (hao : Matrix (Fin (no + nv)) (Fin (no + nv)) ℝ)
    (gao : Fin (no + nv) → Fin (no + nv) → Fin (no + nv) → Fin (no + nv) → ℝ)
    (E_nuc E_conv : ℝ) (C : Matrix (Fin (no + nv)) (Fin (no + nv)) ℝ)
    (MAXITER : ℕ) :
    ((omp2_loop (omp2_body hao gao E_nuc) E_conv MAXITER (omp2_init C)).2
        = OMP2Outcome.converged
      ↔ ∃ k < MAXITER, convCheck (omp2_body hao gao E_nuc) E_conv
          ((omp2_advance (omp2_body hao gao E_nuc))^[k] (omp2_init C)))
    ∧ ((omp2_loop (omp2_body hao gao E_nuc) E_conv MAXITER (omp2_init C)).2
        = OMP2Outcome.maxIterationsExceeded
      ↔ ¬∃ k < MAXITER, convCheck (omp2_body hao gao E_nuc) E_conv
          ((omp2_advance (omp2_body hao gao E_nuc))^[k] (omp2_init C))) := by
  have h1 := omp2_loop_converged_iff (omp2_body hao gao E_nuc) E_conv MAXITER (omp2_init C)
  have h2 : ∀ o : OMP2Outcome,
      o = OMP2Outcome.maxIterationsExceeded ↔ ¬o = OMP2Outcome.converged := by
    intro o
    cases o <;> simp
  exact ⟨h1, (h2 _).trans (not_congr h1)⟩

lemma occ_val {no nv : ℕ} (i : Fin no) : (@occ no nv i).1 = i.1 := rfl

lemma vir_val {no nv : ℕ} (a : Fin nv) : (@vir no nv a).1 = no + a.1 := rfl

/-- C7: the two-particle density matrix equals `tpdm_corr` (vvoo block `t`,
oovv block the four-leg transpose of `t`, all other blocks zero) plus the
antisymmetrized outer product of `opdm_corr` with `opdm_ref` (four
sign-permutation terms) plus the antisymmetrized outer product of `opdm_ref`
with itself (two sign-permutation terms). -/
theorem tpdm_assembly_matches_spec {K : Type} [Field K] {no nv : ℕ}
    (t_amp : Fin nv → Fin nv → Fin no → Fin no → K) :
    (∀ a b i j, tpdm_corr t_amp (vir a) (vir b) (occ i) (occ j) = t_amp a b i j)
    ∧ (∀ a b i j, tpdm_corr t_amp (occ i) (occ j) (vir a) (vir b) = t_amp b a j i)
    ∧ (∀ p q r s, ¬(no ≤ p.1 ∧ no ≤ q.1 ∧ r.1 < no ∧ s.1 < no) →
        ¬(p.1 < no ∧ q.1 < no ∧ no ≤ r.1 ∧ no ≤ s.1) → tpdm_corr t_amp p q r s = 0)
    ∧ (∀ r s p q, tpdm t_amp r s p q =
        tpdm_corr t_amp r s p q
          + (opdm_corr t_amp r p * opdm_ref no nv s q
              - opdm_corr t_amp s p * opdm_ref no nv r q
              - opdm_corr t_amp r q * opdm_ref no nv s p
              + opdm_corr t_amp s q * opdm_ref no nv r p)
          + (opdm_ref no nv r p * opdm_ref no nv s q
              - opdm_ref no nv s p * opdm_ref no nv r q)) := by
  refine ⟨?_, ?_, ?_, ?_⟩
  · intro a b i j
    unfold tpdm_corr
    rw [dif_pos ⟨by simp [vir_val], by simp [vir_val],
      by simp [occ_val], by simp [occ_val]⟩]
    have e1 : (@vir no nv a).1 - no = a.1 := by rw [vir_val]; omega
    have e2 : (@vir no nv b).1 - no = b.1 := by rw [vir_val]; omega
    simp only [e1, e2, occ_val, Fin.eta]
  · intro a b i j
    unfold tpdm_corr
    rw [dif_neg (by have := i.2; simp only [occ_val, vir_val]; omega),
      dif_pos ⟨by simp [occ_val], by simp [occ_val],
        by simp [vir_val], by simp [vir_val]⟩]
    have e1 : (@vir no nv a).1 - no = a.1 := by rw [vir_val]; omega
    have e2 : (@vir no nv b).1 - no = b.1 := by rw [vir_val]; omega
    simp only [e1, e2, occ_val, Fin.eta]
  · intro p q r s h1 h2
    unfold tpdm_corr
    rw [dif_neg h1, dif_neg h2]
  · intro r s p q
    unfold tpdm swap01 swap23 tpdm2 tpdm3
    ring

theorem tpdm_assembly_matches_spec_witness :
    tpdm_corr t_example (0 : Fin (2 + 2)) (0 : Fin (2 + 2)) (0 : Fin (2 + 2))
      (0 : Fin (2 + 2)) = 0 :=
  (tpdm_assembly_matches_spec t_example).2.2.1 0 0 0 0 (by decide) (by decide)
